import Mathlib

/-!
Shallow embedding of the Othello engine (src/game.py and src/ai.py) and proofs
of the specification claims about it.

Conventions used throughout:
* a board is a function `Int → Int → Int`, read as `b y x` to mirror the
  numpy access `board[y, x]`; only the 8×8 window `0 ≤ x, y < 8` is ever
  read by the engine (all reads outside the placement cell are guarded by
  `onboard`, exactly as in the source);
* the Python floats of the evaluation function are embedded as exact
  rationals (`ℚ`); every literal appearing in the source is representable;
* the wall-clock timeout test `(time.monotonic() - start) > time_limit`
  is modelled by an abstract oracle `clk : Nat → Bool`, consulted once per
  check in program order; `fun _ => false` models "no time limit",
  `fun _ => true` models a 0 ms budget that has already expired;
* the `TimeoutError` raised by `search` is modelled by `Except`, the error
  carrying the mutated global state at raise time.
-/

namespace Othello

/-- `EMPTY = 0` from game.py. -/
def EMPTY : Int := 0

/-- `BLACK = 1` from game.py. -/
def BLACK : Int := 1

/-- `WHITE = -1` from game.py. -/
def WHITE : Int := -1

/-- The eight ray directions `DIRS` from game.py, in source order. -/
def DIRS : List (Int × Int) :=
  [(-1,-1), (0,-1), (1,-1), (-1, 0), (1, 0), (-1, 1), (0, 1), (1, 1)]

/-- A board: `b y x` mirrors `board[y, x]`. -/
def Board : Type := Int → Int → Int

/-- `onboard(x, y)` from game.py. -/
def onboard (x y : Int) : Bool :=
  decide (0 ≤ x) && decide (x < 8) && decide (0 ≤ y) && decide (y < 8)

/-- Write `v` at `board[y, x]` (numpy assignment `out[y, x] = v`). -/
def Board.put (b : Board) (x y v : Int) : Board :=
  fun Y X => if Y = y ∧ X = x then v else b Y X

/-- The µ-loop `while onboard(nx,ny) and board[ny,nx] == opp: ...` shared by
`legal_moves` and `apply_move`: starting from `(nx, ny)` it walks in direction
`(dx, dy)` collecting the consecutive cells holding `opp`, and returns the
collected run together with the first coordinate that stopped the walk.
`fuel` bounds the number of loop iterations; `8` iterations always suffice on
an 8×8 board (an in-board run along a ray has at most 7 cells). -/
def ray (b : Board) (opp dx dy : Int) : Nat → Int → Int → List (Int × Int) × (Int × Int)
  | 0, nx, ny => ([], (nx, ny))
  | fuel + 1, nx, ny =>
    if onboard nx ny && decide (b ny nx = opp) then
      let r := ray b opp dx dy fuel (nx + dx) (ny + dy)
      ((nx, ny) :: r.1, r.2)
    else ([], (nx, ny))

/-- The per-direction test inside `Game.legal_moves`: walking from
`(x+dx, y+dy)`, at least one opponent stone was seen and the walk stopped
in-board on one of `player`'s stones. -/
def captures (b : Board) (p x y dx dy : Int) : Bool :=
  let r := ray b (-p) dx dy 8 (x + dx) (y + dy)
  !r.1.isEmpty && onboard r.2.1 r.2.2 && decide (b r.2.2 r.2.1 = p)

/-- `Game.legal_moves(board, player)` from game.py: all empty cells from which
some direction captures, listed in the source's `y`-outer/`x`-inner order. -/
def legal_moves (b : Board) (p : Int) : List (Int × Int) :=
  (List.range 8).flatMap fun y =>
    (List.range 8).filterMap fun x =>
      if b (Int.ofNat y) (Int.ofNat x) = EMPTY ∧
          DIRS.any (fun d => captures b p (Int.ofNat x) (Int.ofNat y) d.1 d.2) = true then
        some (Int.ofNat x, Int.ofNat y)
      else none

/-- One direction step of `Game.apply_move`: re-walk the ray on the board
being mutated and flip the collected run if it is closed by a `player`
stone. -/
def applyDir (p x y : Int) (out : Board) (d : Int × Int) : Board :=
  let r := ray out (-p) d.1 d.2 8 (x + d.1) (y + d.2)
  if !r.1.isEmpty && onboard r.2.1 r.2.2 && decide (out r.2.2 r.2.1 = p) then
    r.1.foldl (fun o c => o.put c.1 c.2 p) out
  else out

/-- `Game.apply_move(board, x, y, player)` from game.py: place the stone,
then fold the flip step over the eight directions in source order. -/
def apply_move (b : Board) (x y p : Int) : Board :=
  DIRS.foldl (applyDir p x y) (b.put x y p)

/-- The 64 cell coordinates `(x, y)` of the board window. -/
def cells : List (Int × Int) :=
  (List.range 8).flatMap fun y => (List.range 8).map fun x => (Int.ofNat x, Int.ofNat y)

/-- `(board == EMPTY).sum()`: the number of empty cells. -/
def emptyCount (b : Board) : Nat :=
  cells.countP fun c => decide (b c.2 c.1 = EMPTY)

/-- The total number of occupied (non-empty) cells of the window: the
"total stone count" of the claims. -/
def stoneCount (b : Board) : Nat :=
  cells.countP fun c => !decide (b c.2 c.1 = EMPTY)

/-- A board whose 64 window cells all hold a value in `{-1, 0, +1}`. -/
def ValidBoard (b : Board) : Prop :=
  ∀ c ∈ cells, b c.2 c.1 = -1 ∨ b c.2 c.1 = 0 ∨ b c.2 c.1 = 1

instance (b : Board) : Decidable (ValidBoard b) := by
  unfold ValidBoard; infer_instance

/-- `coord_to_notation(x, y)` from game.py: column letter A–H then row 1–8. -/
def coord_to_notation (x y : Int) : String :=
  (Char.ofNat (65 + x.toNat)).toString ++ toString (y + 1)

/-- The full-state snapshot stored by `Game.snapshot` (board, player, mode,
pass streak, move log, last move). -/
structure Snap where
  board : Board
  current_player : Int
  mode : String
  pass_streak : Int
  move_history : List String
  last_move : Option (Int × Int)

/-- The mutable state of a `Game` session.  The undo/redo stacks `history`
and `future` keep their top element at the head (Python appends and pops at
the end of the list). -/
structure Game where
  mode : String
  board : Board
  current_player : Int
  pass_streak : Int
  history : List Snap
  future : List Snap
  move_history : List String
  last_move : Option (Int × Int)

/-- `Game._init_board`: the standard four-stone opening position. -/
def initBoard : Board := fun y x =>
  if (y = 3 ∧ x = 3) ∨ (y = 4 ∧ x = 4) then WHITE
  else if (y = 3 ∧ x = 4) ∨ (y = 4 ∧ x = 3) then BLACK
  else EMPTY

/-- `Game.__init__` with the default mode. -/
def initGame : Game :=
  { mode := "AI_WHITE"
    board := initBoard
    current_player := BLACK
    pass_streak := 0
    history := []
    future := []
    move_history := []
    last_move := none }

/-- `Game.snapshot`. -/
def Game.snapshot (g : Game) : Snap :=
  { board := g.board
    current_player := g.current_player
    mode := g.mode
    pass_streak := g.pass_streak
    move_history := g.move_history
    last_move := g.last_move }

/-- `Game.restore(snap)`. -/
def Game.restore (g : Game) (s : Snap) : Game :=
  { g with
    board := s.board
    current_player := s.current_player
    mode := s.mode
    pass_streak := s.pass_streak
    move_history := s.move_history
    last_move := s.last_move }

/-- `Game.undo(steps)`: returns the final state together with the `ok`
flag (true iff at least one step was undone). -/
def Game.undo (g : Game) : Nat → Game × Bool
  | 0 => (g, false)
  | steps + 1 =>
    match g.history with
    | [] => (g, false)
    | prev :: rest =>
      let curr := g.snapshot
      let g1 := ({ g with history := rest, future := curr :: g.future }).restore prev
      ((g1.undo steps).1, true)

/-- `Game.redo(steps)`. -/
def Game.redo (g : Game) : Nat → Game × Bool
  | 0 => (g, false)
  | steps + 1 =>
    match g.future with
    | [] => (g, false)
    | nxt :: rest =>
      let curr := g.snapshot
      let g1 := ({ g with future := rest, history := curr :: g.history }).restore nxt
      ((g1.redo steps).1, true)

/-- `Game.make_move(x, y)`: reject an illegal move with no state change,
otherwise snapshot, clear the redo stack, apply, log, swap player. -/
def Game.make_move (g : Game) (x y : Int) : Game × Bool :=
  let moves := legal_moves g.board g.current_player
  if (x, y) ∈ moves then
    ({ g with
        history := g.snapshot :: g.history
        future := []
        board := apply_move g.board x y g.current_player
        last_move := some (x, y)
        move_history := g.move_history ++ [ coord_to_notation x y]
        current_player := g.current_player * (-1)
        pass_streak := 0 }, true)
  else (g, false)

/-- `Game.pass_turn()`: only allowed when the current player has no legal
move. -/
def Game.pass_turn (g : Game) : Game × Bool :=
  if legal_moves g.board g.current_player ≠ [] then (g, false)
  else
    ({ g with
        history := g.snapshot :: g.history
        future := []
        move_history := g.move_history ++ ["pass"]
        current_player := g.current_player * (-1)
        pass_streak := g.pass_streak + 1 }, true)

/-- `Game.is_game_over()`. -/
def Game.is_game_over (g : Game) : Bool :=
  if emptyCount g.board = 0 then true
  else if (legal_moves g.board BLACK).length = 0 ∧ (legal_moves g.board WHITE).length = 0 then true
  else false

/-! ### ai.py -/

/-- The positional weight matrix `W` from ai.py, rows in source order. -/
def Wmat : List (List Int) :=
  [[120,-20, 20,  5,  5, 20,-20,120],
   [-20,-40,-5, -5, -5, -5,-40,-20],
   [ 20, -5, 15,  3,  3, 15, -5, 20],
   [  5, -5,  3,  3,  3,  3, -5,  5],
   [  5, -5,  3,  3,  3,  3, -5,  5],
   [ 20, -5, 15,  3,  3, 15, -5, 20],
   [-20,-40,-5, -5, -5, -5,-40,-20],
   [120,-20, 20,  5,  5, 20,-20,120]]

/-- `W[y][x]` as an integer (cells of the window only are ever read). -/
def Wv (y x : Int) : Int := (Wmat.getD y.toNat []).getD x.toNat 0

/-- `CORNERS` from ai.py. -/
def CORNERS : List (Int × Int) := [(0,0), (7,0), (0,7), (7,7)]

/-- `ADJ_CORNERS` from ai.py. -/
def ADJ_CORNERS : List (Int × Int) :=
  [(1,0), (0,1), (6,0), (7,1), (0,6), (1,7), (6,7), (7,6)]

/-- The four orthogonal neighbour offsets used by
`stable_frontier_penalty`. -/
def ORTHO : List (Int × Int) := [(-1,0), (1,0), (0,-1), (0,1)]

/-- The "adjacent to an empty cell" test inside `stable_frontier_penalty`. -/
def hasEmptyNeighbor (b : Board) (x y : Int) : Bool :=
  ORTHO.any fun d => onboard (x + d.1) (y + d.2) && decide (b (y + d.2) (x + d.1) = EMPTY)

/-- `stable_frontier_penalty(board, player)` from ai.py: count the frontier
stones of each colour and return `frontier_o - frontier_p` (the `elif` of the
source is mirrored by the extra `≠ p` conjunct of the opponent count). -/
def stable_frontier_penalty (b : Board) (p : Int) : Int :=
  let fp := cells.countP fun c =>
    !decide (b c.2 c.1 = EMPTY) && hasEmptyNeighbor b c.1 c.2 && decide (b c.2 c.1 = p)
  let fo := cells.countP fun c =>
    !decide (b c.2 c.1 = EMPTY) && hasEmptyNeighbor b c.1 c.2 &&
      (!decide (b c.2 c.1 = p) && decide (b c.2 c.1 = -p))
  (fo : Int) - (fp : Int)

/-- The contribution of one corner cell holding `v` to the corner counter of
`evaluate` (the `+= 1` / `-= 1` branches). -/
def cornerVal (v p : Int) : Int := if v = p then 1 else if v = -p then -1 else 0

/-- The corner differential of `evaluate`. -/
def corner_score (b : Board) (p : Int) : Int :=
  (CORNERS.map fun c => cornerVal (b c.2 c.1) p).sum

/-- The contribution of one corner-adjacent cell holding `v` to the danger
term of `evaluate` (the `-= 0.5` / `+= 0.5` branches). -/
def dangerVal (v p : Int) : ℚ := if v = p then -(1/2) else if v = -p then 1/2 else 0

/-- The danger term of `evaluate`. -/
def danger_score (b : Board) (p : Int) : ℚ :=
  (ADJ_CORNERS.map fun c => dangerVal (b c.2 c.1) p).sum

/-- `(board * W).sum()`: the positional dot product. -/
def posSum (b : Board) : Int := (cells.map fun c => b c.2 c.1 * Wv c.2 c.1).sum

/-- `board.sum()`: the raw stone-count differential. -/
def boardSum (b : Board) : Int := (cells.map fun c => b c.2 c.1).sum

/-- `evaluate(board, player)` from ai.py, with the Python floats embedded as
exact rationals. -/
def evaluate (b : Board) (p : Int) : ℚ :=
  let empties : Int := (emptyCount b : Int)
  let posv : Int := posSum b * (if p = BLACK then 1 else -1)
  let corner : Int := corner_score b p
  let danger : ℚ := danger_score b p
  let mob : Int := ((legal_moves b p).length : Int) - ((legal_moves b (-p)).length : Int)
  let frontier : Int := stable_frontier_penalty b p
  let phase : ℚ := (64 - (empties : ℚ)) / 64
  let early : ℚ := max 0 (1 - 2 * phase)
  let mid : ℚ := max 0 (2 * phase * (1 - phase))
  let late : ℚ := max 0 (2 * phase - 1)
  early * (9/10 * (posv : ℚ) + 3 * (mob : ℚ) + 8 * (corner : ℚ) + 1 * danger)
    + mid * (6/10 * (posv : ℚ) + 4 * (mob : ℚ) + 8 * (corner : ℚ) - 12/10 * (frontier : ℚ))
    + late * ((boardSum b : ℚ) * (if p = BLACK then 1 else -1) * 2 + 10 * (corner : ℚ))

/-- The sort key `score(m)` of `order_moves`. -/
def moveScore (m : Int × Int) : ℚ :=
  if m ∈ CORNERS then -100
  else if m ∈ ADJ_CORNERS then 20
  else |(7/2 : ℚ) - (m.1 : ℚ)| + |(7/2 : ℚ) - (m.2 : ℚ)|

/-- `order_moves(moves)` from ai.py.  Python's `sorted` is a stable sort by
the key; a stable sort by a total preorder is extensionally unique, so the
(stable) insertion sort used here returns exactly the list `sorted` does. -/
def order_moves (moves : List (Int × Int)) : List (Int × Int) :=
  moves.insertionSort (fun a b => moveScore a ≤ moveScore b)

/-- Extended evaluation values: `-math.inf`, a finite value, `math.inf`. -/
inductive XQ where
  | ninf : XQ
  | fin : ℚ → XQ
  | pinf : XQ
deriving DecidableEq

/-- `a <= b` on extended values. -/
def XQ.le : XQ → XQ → Bool
  | ninf, _ => true
  | _, pinf => true
  | fin a, fin b => decide (a ≤ b)
  | pinf, _ => false
  | fin _, ninf => false

/-- `a < b` on extended values. -/
def XQ.lt (a b : XQ) : Bool := !(XQ.le b a)

/-- Negation of an extended value. -/
def XQ.neg : XQ → XQ
  | ninf => pinf
  | fin q => fin (-q)
  | pinf => ninf

/-- The three transposition-table bound flags of ai.py. -/
inductive Flag where
  | EXACT : Flag
  | LOWER : Flag
  | UPPER : Flag
deriving DecidableEq

/-- One transposition-table entry (`value`, `flag`, `depth`, `best`). -/
structure TTE where
  value : XQ
  flag : Flag
  depth : Nat
  best : Option (Int × Int)

/-- The key `(player, board.tobytes())` of `board_key`: the serialized
window contents stand in for the byte string. -/
abbrev TTKey : Type := Int × List (List Int)

/-- Row-major serialization of the board window (`board.tobytes()`). -/
def serBoard (b : Board) : List (List Int) :=
  (List.range 8).map fun y => (List.range 8).map fun x => b (Int.ofNat y) (Int.ofNat x)

/-- `board_key(board, player)` from ai.py. -/
def board_key (b : Board) (p : Int) : TTKey := (p, serBoard b)

/-- The transposition table `TT`, as an overwrite-on-insert association
list: lookup returns the most recent binding of a key. -/
abbrev TTmap : Type := List (TTKey × TTE)

/-- `TT.get(key)`. -/
def ttGet : TTmap → TTKey → Option TTE
  | [], _ => none
  | e :: rest, k => if e.1 = k then some e.2 else ttGet rest k

/-- `TT[key] = entry` (the new binding shadows any older one). -/
def ttPut (tt : TTmap) (k : TTKey) (e : TTE) : TTmap := (k, e) :: tt

/-- The global mutable state threaded through `search`: the table `TT`, the
number of wall-clock consultations so far (the oracle index), and the
`out_best` dictionary (`move` and `root_depth`). -/
structure SState where
  tt : TTmap
  cnt : Nat
  outMove : Option (Int × Int)
  rootDepth : Nat

/-- The `for (x, y) in legal:` loop of `search`, parameterized by the
depth-decremented recursive call `recur`.  Accumulators are `best_val`,
`best_mv` and the (mutated) `alpha`; the `break` on `alpha >= beta` returns
early. -/
def searchGo (recur : Board → Int → XQ → XQ → SState → Except SState (XQ × SState))
    (p : Int) (beta : XQ) :
    List (Int × Int) → Board → XQ → Option (Int × Int) → XQ → SState →
      Except SState (XQ × Option (Int × Int) × XQ × SState)
  | [], _, bestv, bestmv, alpha, st => Except.ok (bestv, bestmv, alpha, st)
  | (x, y) :: rest, b, bestv, bestmv, alpha, st =>
    match recur (apply_move b x y p) (-p) beta.neg alpha.neg st with
    | Except.error st2 => Except.error st2
    | Except.ok (v0, st2) =>
      let v := v0.neg
      let bestv2 := if XQ.lt bestv v then v else bestv
      let bestmv2 := if XQ.lt bestv v then some (x, y) else bestmv
      let alpha2 := if XQ.lt alpha bestv2 then bestv2 else alpha
      if XQ.le beta alpha2 then Except.ok (bestv2, bestmv2, alpha2, st2)
      else searchGo recur p beta rest b bestv2 bestmv2 alpha2 st2

/-- The move loop of `search` together with the code that follows it: the
TT store (with the source's flag classification against the loop-mutated
`alpha`) and the root `out_best` bookkeeping. -/
def searchLoop (recur : Board → Int → XQ → XQ → SState → Except SState (XQ × SState))
    (d : Nat) (b : Board) (p : Int) (alpha beta : XQ) (st1 : SState)
    (ordered : List (Int × Int)) : Except SState (XQ × SState) :=
  match searchGo recur p beta ordered b XQ.ninf none alpha st1 with
  | Except.error st2 => Except.error st2
  | Except.ok (bestv, bestmv, alpha2, st2) =>
    let flag1 := if XQ.le bestv alpha2 then Flag.UPPER else Flag.EXACT
    let flag2 := if XQ.le beta bestv then Flag.LOWER else flag1
    let st3 := { st2 with tt := ttPut st2.tt (board_key b p) ⟨bestv, flag2, d, bestmv⟩ }
    let st4 := if d = st3.rootDepth then { st3 with outMove := bestmv } else st3
    Except.ok (bestv, st4)

/-- The body of `search` after the wall-clock check and the transposition
probe: terminal test, pass handling, move ordering, and `searchLoop`.
`entry` is the probe result (used for move ordering whatever its depth, as
in the source). -/
def searchCore (recur : Board → Int → XQ → XQ → SState → Except SState (XQ × SState))
    (d : Nat) (b : Board) (p : Int) (alpha beta : XQ) (st1 : SState)
    (entry : Option TTE) : Except SState (XQ × SState) :=
  let legal := legal_moves b p
  if d = 0 ∨ (legal = [] ∧ legal_moves b (-p) = []) then
    Except.ok (XQ.fin (evaluate b p), st1)
  else if legal = [] then
    match recur b (-p) beta.neg alpha.neg st1 with
    | Except.error st2 => Except.error st2
    | Except.ok (v0, st2) =>
      let val := v0.neg
      let st3 := { st2 with tt := ttPut st2.tt (board_key b p) ⟨val, Flag.EXACT, d, none⟩ }
      Except.ok (val, st3)
  else
    let ordered :=
      match entry with
      | some e =>
        match e.best with
        | some mv0 => mv0 :: legal.filter (fun m => decide (m ≠ mv0))
        | none => order_moves legal
      | none => order_moves legal
    searchLoop recur d b p alpha beta st1 ordered

/-- One call of `search` with the recursive call abstracted: wall-clock
check (raising `TimeoutError` as `Except.error`), then the transposition
probe (`EXACT` returns, `LOWER` raises alpha, `UPPER` lowers beta, a
collapsed window returns the stored value), then `searchCore`. -/
def searchAux (clk : Nat → Bool)
    (recur : Board → Int → XQ → XQ → SState → Except SState (XQ × SState))
    (d : Nat) (b : Board) (p : Int) (alpha beta : XQ) (st : SState) :
    Except SState (XQ × SState) :=
  let t := clk st.cnt
  let st1 : SState := { st with cnt := st.cnt + 1 }
  if t then Except.error st1
  else
    let entry := ttGet st1.tt (board_key b p)
    match entry with
    | some e =>
      if d ≤ e.depth then
        if e.flag = Flag.EXACT then Except.ok (e.value, st1)
        else
          let alpha1 := if e.flag = Flag.LOWER ∧ XQ.lt alpha e.value then e.value else alpha
          let beta1 :=
            if ¬(e.flag = Flag.LOWER ∧ XQ.lt alpha e.value) ∧
                (e.flag = Flag.UPPER ∧ XQ.lt e.value beta) then e.value else beta
          if XQ.le beta1 alpha1 then Except.ok (e.value, st1)
          else searchCore recur d b p alpha1 beta1 st1 entry
      else searchCore recur d b p alpha beta st1 entry
    | none => searchCore recur d b p alpha beta st1 none

/-- `search(board, player, depth, alpha, beta, start, time_limit, out_best)`
from ai.py.  At depth 0 the recursion argument is unreachable (the terminal
test fires first), so a vacuous function is passed. -/
def search (clk : Nat → Bool) : Nat → Board → Int → XQ → XQ → SState →
    Except SState (XQ × SState)
  | 0, b, p, alpha, beta, st =>
    searchAux clk (fun _ _ _ _ s => Except.error s) 0 b p alpha beta st
  | d + 1, b, p, alpha, beta, st =>
    searchAux clk (search clk d) (d + 1) b p alpha beta st

/-- The iterative-deepening `for d in range(1, depth+1)` loop of
`choose_move`: each iteration sets `out_best["root_depth"]`, runs `search`
with the full window, adopts `out_best["move"]` when present, and consults
the wall clock once more; a `TimeoutError` aborts the loop, keeping the
current `best`. -/
def idLoop (clk : Nat → Bool) (b : Board) (p : Int) :
    List Nat → (Int × Int) → SState → (Int × Int)
  | [], best, _ => best
  | d :: rest, best, st =>
    let st0 := { st with rootDepth := d }
    match search clk d b p XQ.ninf XQ.pinf st0 with
    | Except.error _ => best
    | Except.ok (_, st1) =>
      let best1 :=
        match st1.outMove with
        | some m => m
        | none => best
      let t := clk st1.cnt
      let st2 := { st1 with cnt := st1.cnt + 1 }
      if t then best1 else idLoop clk b p rest best1 st2

/-- `choose_move(board, player, depth, time_limit_ms)` from ai.py, taking
the global table's contents at call time as `tt0`. -/
def choose_move (clk : Nat → Bool) (b : Board) (p : Int) (depth : Nat)
    (tt0 : TTmap) : Option (Int × Int) :=
  match legal_moves b p with
  | [] => none
  | m0 :: _ =>
    some (idLoop clk b p ((List.range depth).map (· + 1)) m0
      { tt := tt0, cnt := 0, outMove := none, rootDepth := depth })

/-- The flip invariant: the placed cell holds `p`; every other cell is
unchanged or was an opponent stone flipped to `p`. -/
def FD (b : Board) (x y p : Int) (out : Board) : Prop :=
  out y x = p ∧
    ∀ Y X, ¬(Y = y ∧ X = x) → out Y X = b Y X ∨ (b Y X = -p ∧ out Y X = p)

/-- The distance-from-centre sort key used by `order_moves` for moves that
are neither corners nor corner-adjacent. -/
def centerDist (m : Int × Int) : ℚ :=
  |(7/2 : ℚ) - (m.1 : ℚ)| + |(7/2 : ℚ) - (m.2 : ℚ)|

/-- A near-empty test position: WHITE at (x,y)=(3,3) and BLACK at (4,3),
so BLACK's unique legal move is (2,3). -/
def tinyBoard : Board := fun y x =>
  if y = 3 ∧ x = 3 then WHITE else if y = 3 ∧ x = 4 then BLACK else EMPTY

/-- The invariant of the transposition table used by the `choose_move`
proofs: every stored value is finite, and every stored best move is a legal
move of the position serialized in its key. -/
def TTok (tt : TTmap) : Prop :=
  ∀ (b : Board) (p : Int) (e : TTE), ttGet tt (board_key b p) = some e →
    (∃ q, e.value = XQ.fin q) ∧
      (e.best = none ∨ ∃ m, e.best = some m ∧ m ∈ legal_moves b p)

/-- What one completed (or aborted) `search` call guarantees: the table
invariant is preserved, `out_best["root_depth"]` is untouched, a returned
value is finite, and `out_best["move"]` is only ever overwritten at the root
ply, and then only with `None` or a legal move of the root position. -/
def SearchOk (b : Board) (p : Int) (st : SState) (d : Nat) :
    Except SState (XQ × SState) → Prop
  | Except.error st2 => TTok st2.tt ∧ st2.rootDepth = st.rootDepth ∧ st2.outMove = st.outMove
  | Except.ok (v, st2) => TTok st2.tt ∧ st2.rootDepth = st.rootDepth ∧ (∃ q, v = XQ.fin q) ∧
      (d ≠ st.rootDepth → st2.outMove = st.outMove) ∧
      (d = st.rootDepth → st2.outMove = st.outMove ∨ st2.outMove = none ∨
        ∃ m ∈ legal_moves b p, st2.outMove = some m)

/-- What the proofs require of the depth-decremented recursive call fed to
the move loop: on calls strictly below the root ply it preserves the table
invariant, the root depth and `out_best["move"]`, and returns finite
values. -/
def RecurOk (recur : Board → Int → XQ → XQ → SState → Except SState (XQ × SState))
    (d2 : Nat) : Prop :=
  ∀ (b : Board) (p : Int) (alpha beta : XQ) (st : SState), TTok st.tt → d2 < st.rootDepth →
    match recur b p alpha beta st with
    | Except.error st2 => TTok st2.tt ∧ st2.rootDepth = st.rootDepth ∧ st2.outMove = st.outMove
    | Except.ok (v, st2) => TTok st2.tt ∧ st2.rootDepth = st.rootDepth ∧
        (∃ q, v = XQ.fin q) ∧ st2.outMove = st.outMove

/-! ### Theorems.  First, basic facts about the board model. -/

theorem onboard_iff (x y : Int) :
    onboard x y = true ↔ 0 ≤ x ∧ x < 8 ∧ 0 ≤ y ∧ y < 8 := by
  simp [onboard, and_assoc]

theorem mem_cells_iff (c : Int × Int) :
    c ∈ cells ↔ 0 ≤ c.1 ∧ c.1 < 8 ∧ 0 ≤ c.2 ∧ c.2 < 8 := by
  obtain ⟨cx, cy⟩ := c
  simp only [cells, List.mem_flatMap, List.mem_map, List.mem_range, Prod.mk.injEq,
    Int.ofNat_eq_coe]
  constructor
  · rintro ⟨y, hy, x, hx, rfl, rfl⟩
    omega
  · rintro ⟨h1, h2, h3, h4⟩
    exact ⟨cy.toNat, by omega, cx.toNat, by omega, by omega, by omega⟩

theorem cells_nodup : cells.Nodup := by decide

/-- Unfold one membership layer of `legal_moves`. -/
theorem mem_legal_moves_iff (b : Board) (p : Int) (m : Int × Int) :
    m ∈ legal_moves b p ↔
      0 ≤ m.1 ∧ m.1 < 8 ∧ 0 ≤ m.2 ∧ m.2 < 8 ∧ b m.2 m.1 = EMPTY ∧
        ∃ d ∈ DIRS, captures b p m.1 m.2 d.1 d.2 = true := by
  obtain ⟨mx, my⟩ := m
  simp only [legal_moves, List.mem_flatMap, List.mem_filterMap, List.mem_range,
    Int.ofNat_eq_coe]
  constructor
  · rintro ⟨y, hy, x, hx, hif⟩
    by_cases hc : b ((y : ℕ) : Int) ((x : ℕ) : Int) = EMPTY ∧
        DIRS.any (fun d => captures b p ((x : ℕ) : Int) ((y : ℕ) : Int) d.1 d.2) = true
    · rw [if_pos hc] at hif
      have hpair := Option.some.inj hif
      rw [Prod.mk.injEq] at hpair
      obtain ⟨rfl, rfl⟩ : mx = ((x : ℕ) : Int) ∧ my = ((y : ℕ) : Int) :=
        ⟨hpair.1.symm, hpair.2.symm⟩
      rcases hc with ⟨he, hany⟩
      rw [List.any_eq_true] at hany
      obtain ⟨d, hd, hcap⟩ := hany
      exact ⟨by omega, by omega, by omega, by omega, he, d, hd, hcap⟩
    · rw [if_neg hc] at hif
      exact absurd hif (by simp)
  · rintro ⟨h1, h2, h3, h4, he, d, hd, hcap⟩
    refine ⟨my.toNat, by omega, mx.toNat, by omega, ?_⟩
    have hxx : ((mx.toNat : ℕ) : Int) = mx := by omega
    have hyy : ((my.toNat : ℕ) : Int) = my := by omega
    rw [hxx, hyy, if_pos]
    exact ⟨he, List.any_eq_true.mpr ⟨d, hd, hcap⟩⟩

theorem legal_moves_mem_cells {b : Board} {p : Int} {m : Int × Int}
    (h : m ∈ legal_moves b p) : m ∈ cells := by
  rw [mem_legal_moves_iff] at h
  rw [mem_cells_iff]
  exact ⟨h.1, h.2.1, h.2.2.1, h.2.2.2.1⟩

/-! ### C8: terminal detection. -/

/-- C8: `is_game_over()` returns true iff the board has zero empty cells, or
both `legal_moves(board, BLACK)` and `legal_moves(board, WHITE)` are
empty. -/
theorem is_game_over_iff (g : Game) :
    g.is_game_over = true ↔
      emptyCount g.board = 0 ∨
        (legal_moves g.board BLACK = [] ∧ legal_moves g.board WHITE = []) := by
  constructor
  · intro h
    unfold Game.is_game_over at h
    by_cases h1 : emptyCount g.board = 0
    · exact Or.inl h1
    · rw [if_neg h1] at h
      by_cases h2 : (legal_moves g.board BLACK).length = 0 ∧
          (legal_moves g.board WHITE).length = 0
      · exact Or.inr ⟨List.length_eq_zero.mp h2.1, List.length_eq_zero.mp h2.2⟩
      · rw [if_neg h2] at h
        exact absurd h (by simp)
  · intro h
    unfold Game.is_game_over
    by_cases h1 : emptyCount g.board = 0
    · rw [if_pos h1]
    · rcases h with h | ⟨hb, hw⟩
      · exact absurd h h1
      · rw [if_neg h1, if_pos ⟨by simp [hb], by simp [hw]⟩]

/-! ### C6: illegal move and illegal pass are rejected without state change. -/

/-- C6: `make_move(x, y)` on a move outside the legal-move set returns
`False` and leaves the whole session state unchanged, and `pass_turn()`
while a legal move exists is rejected identically. -/
theorem illegal_requests_rejected (g : Game) (x y : Int) :
    ((x, y) ∉ legal_moves g.board g.current_player → g.make_move x y = (g, false)) ∧
      (legal_moves g.board g.current_player ≠ [] → g.pass_turn = (g, false)) := by
  constructor
  · intro h
    simp [Game.make_move, h]
  · intro h
    simp [Game.pass_turn, h]

/-- Witness for C6 at the initial session: `(0,0)` is not a legal opening
move, and legal opening moves exist, so both rejections fire. -/
theorem illegal_requests_rejected_witness :
    ((0, 0) ∉ legal_moves initGame.board initGame.current_player ∧
      initGame.make_move 0 0 = (initGame, false)) ∧
      (legal_moves initGame.board initGame.current_player ≠ [] ∧
        initGame.pass_turn = (initGame, false)) :=
  ⟨⟨by decide, (illegal_requests_rejected initGame 0 0).1 (by decide)⟩,
    ⟨by decide, (illegal_requests_rejected initGame 0 0).2 (by decide)⟩⟩

/-! ### C7: undo/redo round trip. -/

/-- C7: after a successful `make_move`, `undo(1)` restores exactly the prior
board, current player and move log, and `redo(1)` then restores exactly the
post-move board, player and move log. -/
theorem undo_redo_round_trip (g g1 : Game) (x y : Int)
    (h : g.make_move x y = (g1, true)) :
    ((g1.undo 1).1.board = g.board ∧
      (g1.undo 1).1.current_player = g.current_player ∧
      (g1.undo 1).1.move_history = g.move_history) ∧
      (((g1.undo 1).1.redo 1).1.board = g1.board ∧
        ((g1.undo 1).1.redo 1).1.current_player = g1.current_player ∧
        ((g1.undo 1).1.redo 1).1.move_history = g1.move_history) := by
  by_cases hm : (x, y) ∈ legal_moves g.board g.current_player
  · unfold Game.make_move at h
    simp only [hm, if_pos, Prod.mk.injEq] at h
    obtain ⟨hg1, -⟩ := h
    subst hg1
    simp [Game.undo, Game.redo, Game.snapshot, Game.restore]
  · unfold Game.make_move at h
    simp [hm] at h

/-- Witness for C7: the opening move C4 of the initial game. -/
theorem undo_redo_round_trip_witness :
    initGame.make_move 2 3 = ((initGame.make_move 2 3).1, true) ∧
      ((((initGame.make_move 2 3).1.undo 1).1.board = initGame.board ∧
        ((initGame.make_move 2 3).1.undo 1).1.current_player = initGame.current_player ∧
        ((initGame.make_move 2 3).1.undo 1).1.move_history = initGame.move_history) ∧
        ((((initGame.make_move 2 3).1.undo 1).1.redo 1).1.board = (initGame.make_move 2 3).1.board ∧
          (((initGame.make_move 2 3).1.undo 1).1.redo 1).1.current_player =
            (initGame.make_move 2 3).1.current_player ∧
          (((initGame.make_move 2 3).1.undo 1).1.redo 1).1.move_history =
            (initGame.make_move 2 3).1.move_history)) :=
  have h2 : (initGame.make_move 2 3).2 = true := by decide
  have h : initGame.make_move 2 3 = ((initGame.make_move 2 3).1, true) := by
    rw [← h2]
  ⟨h, undo_redo_round_trip initGame (initGame.make_move 2 3).1 2 3 h⟩

/-! ### Machinery for `apply_move`: what the flip fold does to cells. -/

/-- Every cell collected by the `while` walk holds the opponent value and is
on the board. -/
theorem ray_cells (b : Board) (opp dx dy : Int) :
    ∀ fuel nx ny, ∀ c ∈ (ray b opp dx dy fuel nx ny).1,
      b c.2 c.1 = opp ∧ onboard c.1 c.2 = true := by
  intro fuel
  induction fuel with
  | zero => intro nx ny c hc; simp [ray] at hc
  | succ n ih =>
    intro nx ny c hc
    rw [ray] at hc
    by_cases h : (onboard nx ny && decide (b ny nx = opp)) = true
    · rw [if_pos h] at hc
      simp only [Bool.and_eq_true, decide_eq_true_eq] at h
      rcases List.mem_cons.mp hc with rfl | hc2
      · exact ⟨h.2, h.1⟩
      · exact ih (nx + dx) (ny + dy) c hc2
    · rw [if_neg h] at hc
      simp at hc

/-- If the walk collected anything, its first condition fired, so the start
cell is on the board and holds the opponent value, and the start cell is the
head of the collected run. -/
theorem ray_nonempty_head (b : Board) (opp dx dy : Int) (fuel : Nat) (nx ny : Int)
    (h : (ray b opp dx dy fuel nx ny).1 ≠ []) :
    onboard nx ny = true ∧ b ny nx = opp ∧ (nx, ny) ∈ (ray b opp dx dy fuel nx ny).1 := by
  cases fuel with
  | zero => simp [ray] at h
  | succ n =>
    rw [ray] at h ⊢
    by_cases hc : (onboard nx ny && decide (b ny nx = opp)) = true
    · simp only [Bool.and_eq_true, decide_eq_true_eq] at hc
      rw [if_pos (by simp [hc])]
      exact ⟨hc.1, hc.2, List.mem_cons_self _ _⟩
    · rw [if_neg hc] at h
      simp at h

/-- Reading a cell after the flip fold: flipped cells read `p`, the rest read
through. -/
theorem flips_foldl_get (p : Int) :
    ∀ (cs : List (Int × Int)) (o : Board) (Y X : Int),
      (cs.foldl (fun o c => o.put c.1 c.2 p) o) Y X =
        if (X, Y) ∈ cs then p else o Y X := by
  intro cs
  induction cs with
  | nil => intro o Y X; simp
  | cons c rest ih =>
    intro o Y X
    rw [List.foldl_cons, ih]
    by_cases h1 : (X, Y) ∈ rest
    · rw [if_pos h1, if_pos (List.mem_cons_of_mem _ h1)]
    · rw [if_neg h1]
      by_cases h2 : (X, Y) = c
      · rw [if_pos (List.mem_cons.mpr (Or.inl h2))]
        obtain ⟨cx, cy⟩ := c
        obtain ⟨rfl, rfl⟩ : X = cx ∧ Y = cy := Prod.mk.injEq .. ▸ h2
        simp [Board.put]
      · rw [if_neg (by simp [List.mem_cons, h1, h2])]
        obtain ⟨cx, cy⟩ := c
        have : ¬(Y = cy ∧ X = cx) := by
          intro ⟨hy, hx⟩; exact h2 (by simp [hx, hy])
        simp [Board.put, this]

/-- `applyDir` only writes the value `p`. -/
theorem applyDir_cases (p x y : Int) (out : Board) (d : Int × Int) (Y X : Int) :
    (applyDir p x y out d) Y X = out Y X ∨ (applyDir p x y out d) Y X = p := by
  unfold applyDir
  split
  · rw [flips_foldl_get]
    split
    · exact Or.inr rfl
    · exact Or.inl rfl
  · exact Or.inl rfl

/-- The whole direction fold only writes the value `p`. -/
theorem dirs_foldl_cases (p x y : Int) :
    ∀ (l : List (Int × Int)) (out : Board) (Y X : Int),
      (l.foldl (applyDir p x y) out) Y X = out Y X ∨ (l.foldl (applyDir p x y) out) Y X = p := by
  intro l
  induction l with
  | nil => intro out Y X; exact Or.inl rfl
  | cons d rest ih =>
    intro out Y X
    rw [List.foldl_cons]
    rcases ih (applyDir p x y out d) Y X with h | h
    · rw [h]; exact applyDir_cases p x y out d Y X
    · exact Or.inr h

/-- Every cell of `apply_move b x y p` holds its old value or `p`. -/
theorem apply_move_cases (b : Board) (x y p : Int) (Y X : Int) :
    (apply_move b x y p) Y X = b Y X ∨ (apply_move b x y p) Y X = p := by
  unfold apply_move
  rcases dirs_foldl_cases p x y DIRS (b.put x y p) Y X with h | h
  · rw [h]
    unfold Board.put
    split
    · exact Or.inr rfl
    · exact Or.inl rfl
  · exact Or.inr h

theorem fd_put (b : Board) (x y p : Int) : FD b x y p (b.put x y p) := by
  constructor
  · simp [Board.put]
  · intro Y X h
    simp [Board.put, h]

theorem fd_applyDir (b : Board) (x y p : Int) (hp : p = BLACK ∨ p = WHITE)
    (out : Board) (hfd : FD b x y p out) (d : Int × Int) :
    FD b x y p (applyDir p x y out d) := by
  have hpne : -p ≠ p := by rcases hp with rfl | rfl <;> decide
  unfold applyDir
  dsimp only
  split
  · next hcond =>
    constructor
    · rw [flips_foldl_get]
      split
      · rfl
      · exact hfd.1
    · intro Y X h
      rw [flips_foldl_get]
      split
      · next hmem =>
        have hopp := (ray_cells out (-p) d.1 d.2 8 (x + d.1) (y + d.2) (X, Y) hmem).1
        rcases hfd.2 Y X h with h2 | h2
        · exact Or.inr ⟨h2 ▸ hopp, rfl⟩
        · exact absurd (hopp ▸ h2.2) hpne
      · exact hfd.2 Y X h
  · exact hfd

theorem fd_foldl (b : Board) (x y p : Int) (hp : p = BLACK ∨ p = WHITE) :
    ∀ (l : List (Int × Int)) (out : Board), FD b x y p out →
      FD b x y p (l.foldl (applyDir p x y) out) := by
  intro l
  induction l with
  | nil => exact fun out h => h
  | cons d rest ih =>
    intro out h
    exact ih _ (fd_applyDir b x y p hp out h d)

theorem fd_apply_move (b : Board) (x y p : Int) (hp : p = BLACK ∨ p = WHITE) :
    FD b x y p (apply_move b x y p) :=
  fd_foldl b x y p hp DIRS _ (fd_put b x y p)

/-! ### C10: `apply_move` keeps cell values in range and never removes a
stone, legal move or not. -/

/-- C10: for a valid board, a player, and any in-range coordinate (legal or
not), `apply_move` returns a board whose cells are all in `{-1, 0, +1}`, and
every non-empty input cell is still non-empty. -/
theorem apply_move_preserves_cells (b : Board) (x y p : Int) (hb : ValidBoard b)
    (hp : p = BLACK ∨ p = WHITE) (_hxy : onboard x y = true) :
    ValidBoard (apply_move b x y p) ∧
      ∀ c ∈ cells, b c.2 c.1 ≠ EMPTY → (apply_move b x y p) c.2 c.1 ≠ EMPTY := by
  have hpvals : p = -1 ∨ p = 0 ∨ p = 1 := by
    rcases hp with rfl | rfl
    · exact Or.inr (Or.inr rfl)
    · exact Or.inl rfl
  have hpne : p ≠ EMPTY := by rcases hp with rfl | rfl <;> decide
  constructor
  · intro c hc
    rcases apply_move_cases b x y p c.2 c.1 with h | h
    · rw [h]; exact hb c hc
    · rw [h]; exact hpvals
  · intro c hc hne
    rcases apply_move_cases b x y p c.2 c.1 with h | h
    · rw [h]; exact hne
    · rw [h]; exact hpne

/-- Witness for C10 at an in-range but illegal coordinate of the initial
board. -/
theorem apply_move_preserves_cells_witness :
    (ValidBoard initBoard ∧ (BLACK = BLACK ∨ BLACK = WHITE) ∧ onboard 0 0 = true) ∧
      ValidBoard (apply_move initBoard 0 0 BLACK) ∧
        ∀ c ∈ cells, initBoard c.2 c.1 ≠ EMPTY →
          (apply_move initBoard 0 0 BLACK) c.2 c.1 ≠ EMPTY :=
  ⟨⟨by decide, Or.inl rfl, by decide⟩,
    apply_move_preserves_cells initBoard 0 0 BLACK (by decide) (Or.inl rfl) (by decide)⟩

/-! ### C5: a legal move adds exactly one stone. -/

/-- C5: under the precondition that `(x, y)` is legal for `player`, the board
returned by `apply_move` has exactly one more occupied cell than its input:
the placed stone is new and flips only change the owner. -/
theorem countP_succ_of_unique {α : Type} (f g : α → Bool) :
    ∀ (l : List α), l.Nodup → ∀ a ∈ l, f a = true → g a = false →
      (∀ c ∈ l, c ≠ a → f c = g c) → l.countP f = l.countP g + 1 := by
  intro l
  induction l with
  | nil => intro _ a ha; simp at ha
  | cons hd rest ih =>
    intro hnd a ha hf hg hcong
    rw [List.countP_cons, List.countP_cons]
    rcases List.mem_cons.mp ha with rfl | hmem
    · have hrest : rest.countP f = rest.countP g := by
        apply List.countP_congr
        intro c hc
        have hne : c ≠ a := fun h => (List.nodup_cons.mp hnd).1 (h ▸ hc)
        rw [hcong c (List.mem_cons_of_mem _ hc) hne]
      rw [hrest, hf, hg]
      simp
    · have hne : hd ≠ a := by
        intro h
        exact (List.nodup_cons.mp hnd).1 (h ▸ hmem)
      rw [hcong hd (List.mem_cons_self _ _) hne,
        ih (List.nodup_cons.mp hnd).2 a hmem hf hg
          (fun c hc hcne => hcong c (List.mem_cons_of_mem _ hc) hcne)]
      omega

theorem apply_move_stone_count (b : Board) (x y p : Int)
    (hp : p = BLACK ∨ p = WHITE) (hm : (x, y) ∈ legal_moves b p) :
    stoneCount (apply_move b x y p) = stoneCount b + 1 := by
  have hpne : p ≠ EMPTY := by rcases hp with rfl | rfl <;> decide
  have hopne : -p ≠ EMPTY := by rcases hp with rfl | rfl <;> decide
  have hmem : (x, y) ∈ cells := legal_moves_mem_cells hm
  have he : b y x = EMPTY := by
    have := (mem_legal_moves_iff b p (x, y)).mp hm
    exact this.2.2.2.2.1
  have hfd := fd_apply_move b x y p hp
  have hout : (apply_move b x y p) y x = p := hfd.1
  unfold stoneCount
  apply countP_succ_of_unique _ _ cells cells_nodup (x, y) hmem
  · simp [hout, hpne]
  · simp [he]
  · intro c hc hcne
    have hne : ¬(c.2 = y ∧ c.1 = x) := by
      intro ⟨h1, h2⟩
      exact hcne (by obtain ⟨a, s⟩ := c; simp only [Prod.mk.injEq]; exact ⟨h2, h1⟩)
    rcases hfd.2 c.2 c.1 hne with h | ⟨h1, h2⟩
    · rw [h]
    · rw [h1, h2]
      simp [hpne, hopne]

/-- Witness for C5: the opening move C4. -/
theorem apply_move_stone_count_witness :
    ((BLACK = BLACK ∨ BLACK = WHITE) ∧ ((2 : Int), (3 : Int)) ∈ legal_moves initBoard BLACK) ∧
      stoneCount (apply_move initBoard 2 3 BLACK) = stoneCount initBoard + 1 :=
  ⟨⟨Or.inl rfl, by decide⟩,
    apply_move_stone_count initBoard 2 3 BLACK (Or.inl rfl) (by decide)⟩

/-! ### C1: every legal move flips at least one opponent stone. -/

theorem ray_empty_end (b : Board) (opp dx dy : Int) (fuel : Nat) (nx ny : Int)
    (h : (ray b opp dx dy fuel nx ny).1 = []) :
    (ray b opp dx dy fuel nx ny).2 = (nx, ny) := by
  cases fuel with
  | zero => rfl
  | succ n =>
    rw [ray] at h ⊢
    by_cases hc : (onboard nx ny && decide (b ny nx = opp)) = true
    · rw [if_pos hc] at h
      simp at h
    · rw [if_neg hc]

/-- Unfolding `captures`. -/
theorem captures_eq_true_iff (b : Board) (p x y dx dy : Int) :
    captures b p x y dx dy = true ↔
      (ray b (-p) dx dy 8 (x + dx) (y + dy)).1 ≠ [] ∧
        onboard (ray b (-p) dx dy 8 (x + dx) (y + dy)).2.1
          (ray b (-p) dx dy 8 (x + dx) (y + dy)).2.2 = true ∧
        b (ray b (-p) dx dy 8 (x + dx) (y + dy)).2.2
          (ray b (-p) dx dy 8 (x + dx) (y + dy)).2.1 = p := by
  unfold captures
  simp [Bool.and_eq_true, List.isEmpty_iff, and_assoc]

/-- Transfer of a capturing walk from the pre-move board `b` to a partially
flipped board `out`: if on `b` the walk from `(nx, ny)` saw opponent stones
and closed on a `p` stone, and `out` differs from `b` only by cells now
holding `p`, and `(nx, ny)` still holds the opponent on `out`, then the walk
on `out` also sees opponent stones and closes in-board on a `p` stone. -/
theorem ray_out (b out : Board) (p dx dy : Int) (hp : p = BLACK ∨ p = WHITE)
    (hmono : ∀ Y X, out Y X = b Y X ∨ out Y X = p) :
    ∀ (fuel : Nat) (nx ny : Int),
      (ray b (-p) dx dy fuel nx ny).1 ≠ [] →
      onboard (ray b (-p) dx dy fuel nx ny).2.1 (ray b (-p) dx dy fuel nx ny).2.2 = true →
      b (ray b (-p) dx dy fuel nx ny).2.2 (ray b (-p) dx dy fuel nx ny).2.1 = p →
      out ny nx = -p →
      (ray out (-p) dx dy fuel nx ny).1 ≠ [] ∧
        onboard (ray out (-p) dx dy fuel nx ny).2.1
          (ray out (-p) dx dy fuel nx ny).2.2 = true ∧
        out (ray out (-p) dx dy fuel nx ny).2.2
          (ray out (-p) dx dy fuel nx ny).2.1 = p := by
  have hpne : p ≠ -p := by rcases hp with rfl | rfl <;> decide
  intro fuel
  induction fuel with
  | zero => intro nx ny h1; simp [ray] at h1
  | succ n ih =>
    intro nx ny h1 h2 h3 h4
    have hbcond : (onboard nx ny && decide (b ny nx = -p)) = true := by
      by_cases hc : (onboard nx ny && decide (b ny nx = -p)) = true
      · exact hc
      · rw [ray, if_neg hc] at h1
        simp at h1
    have hob : onboard nx ny = true := (Bool.and_eq_true .. ▸ hbcond).1
    have hocond : (onboard nx ny && decide (out ny nx = -p)) = true := by
      simp [hob, h4]
    rw [ray, if_pos hbcond] at h2 h3
    dsimp only at h2 h3
    rw [ray, if_pos hocond]
    refine ⟨by simp, ?_⟩
    by_cases hrb : (ray b (-p) dx dy n (nx + dx) (ny + dy)).1 = []
    · have hend := ray_empty_end b (-p) dx dy n (nx + dx) (ny + dy) hrb
      rw [hend] at h2 h3
      have houtp : out (ny + dy) (nx + dx) = p := by
        rcases hmono (ny + dy) (nx + dx) with h | h
        · rw [h]; exact h3
        · exact h
      have hroe : (ray out (-p) dx dy n (nx + dx) (ny + dy)).2 = (nx + dx, ny + dy) := by
        apply ray_empty_end
        cases n with
        | zero => rfl
        | succ m =>
          rw [ray, if_neg]
          simp [houtp, hpne]
      rw [hroe]
      exact ⟨h2, houtp⟩
    · have hhead := ray_nonempty_head b (-p) dx dy n (nx + dx) (ny + dy) hrb
      by_cases hout : out (ny + dy) (nx + dx) = -p
      · exact ((ih (nx + dx) (ny + dy) hrb h2 h3 hout).2)
      · have houtp : out (ny + dy) (nx + dx) = p := by
          rcases hmono (ny + dy) (nx + dx) with h | h
          · rw [h] at hout ⊢
            exact absurd hhead.2.1 hout
          · exact h
        have hroe : (ray out (-p) dx dy n (nx + dx) (ny + dy)).2 = (nx + dx, ny + dy) := by
          apply ray_empty_end
          cases n with
          | zero => rfl
          | succ m =>
            rw [ray, if_neg]
            simp [houtp, hpne]
        rw [hroe]
        exact ⟨hhead.1, houtp⟩

/-- At the direction that made the move legal, `applyDir` leaves the first
ray cell holding `p` (it either flips it now or it was already flipped). -/
theorem applyDir_flips_first (b out : Board) (x y p : Int)
    (hp : p = BLACK ∨ p = WHITE) (hfd : FD b x y p out) (d : Int × Int)
    (hd : captures b p x y d.1 d.2 = true) :
    (applyDir p x y out d) (y + d.2) (x + d.1) = p := by
  have hmono : ∀ Y X, out Y X = b Y X ∨ out Y X = p := by
    intro Y X
    by_cases h : Y = y ∧ X = x
    · right
      rw [h.1, h.2]
      exact hfd.1
    · rcases hfd.2 Y X h with h2 | h2
      · exact Or.inl h2
      · exact Or.inr h2.2
  rw [captures_eq_true_iff] at hd
  obtain ⟨hb1, hb2, hb3⟩ := hd
  by_cases hout : out (y + d.2) (x + d.1) = -p
  · have hro := ray_out b out p d.1 d.2 hp hmono 8 (x + d.1) (y + d.2) hb1 hb2 hb3 hout
    have hcond : (!(ray out (-p) d.1 d.2 8 (x + d.1) (y + d.2)).1.isEmpty &&
        onboard (ray out (-p) d.1 d.2 8 (x + d.1) (y + d.2)).2.1
          (ray out (-p) d.1 d.2 8 (x + d.1) (y + d.2)).2.2 &&
        decide (out (ray out (-p) d.1 d.2 8 (x + d.1) (y + d.2)).2.2
          (ray out (-p) d.1 d.2 8 (x + d.1) (y + d.2)).2.1 = p)) = true := by
      simp [List.isEmpty_iff, hro.1, hro.2.1, hro.2.2]
    unfold applyDir
    rw [if_pos hcond, flips_foldl_get,
      if_pos (ray_nonempty_head out (-p) d.1 d.2 8 (x + d.1) (y + d.2) hro.1).2.2]
  · have houtp : out (y + d.2) (x + d.1) = p := by
      rcases hmono (y + d.2) (x + d.1) with h | h
      · rw [h] at hout ⊢
        have hhead := ray_nonempty_head b (-p) d.1 d.2 8 (x + d.1) (y + d.2) hb1
        exact absurd hhead.2.1 hout
      · exact h
    rcases applyDir_cases p x y out d (y + d.2) (x + d.1) with h | h
    · rw [h]; exact houtp
    · exact h

/-- The capturing direction of a legal move really flips its first ray cell:
that cell held the opponent on the input board and holds the player on the
output board. -/
theorem apply_move_flips_first (b : Board) (x y p : Int)
    (hp : p = BLACK ∨ p = WHITE) (hm : (x, y) ∈ legal_moves b p) :
    ∃ d ∈ DIRS, onboard (x + d.1) (y + d.2) = true ∧
      b (y + d.2) (x + d.1) = -p ∧ (apply_move b x y p) (y + d.2) (x + d.1) = p := by
  obtain ⟨-, -, -, -, -, d, hd, hcap⟩ := (mem_legal_moves_iff b p (x, y)).mp hm
  refine ⟨d, hd, ?_⟩
  have hhead := ray_nonempty_head b (-p) d.1 d.2 8 (x + d.1) (y + d.2)
    (((captures_eq_true_iff b p x y d.1 d.2).mp hcap).1)
  refine ⟨hhead.1, hhead.2.1, ?_⟩
  obtain ⟨l1, l2, hsplit⟩ := List.append_of_mem hd
  unfold apply_move
  rw [hsplit, List.foldl_append, List.foldl_cons]
  have hfd0 : FD b x y p (l1.foldl (applyDir p x y) (b.put x y p)) :=
    fd_foldl b x y p hp l1 _ (fd_put b x y p)
  have h1 := applyDir_flips_first b _ x y p hp hfd0 d hcap
  rcases dirs_foldl_cases p x y l2 (applyDir p x y (l1.foldl (applyDir p x y) (b.put x y p)) d)
      (y + d.2) (x + d.1) with h | h
  · rw [h]; exact h1
  · exact h

/-- C1: every move returned by `legal_moves` flips, when applied, at least
one cell from the opponent's value to the player's value. -/
theorem legal_moves_sound (b : Board) (p x y : Int) (_hb : ValidBoard b)
    (hp : p = BLACK ∨ p = WHITE) (hm : (x, y) ∈ legal_moves b p) :
    ∃ c ∈ cells, b c.2 c.1 = -p ∧ (apply_move b x y p) c.2 c.1 = p := by
  obtain ⟨d, -, hob, hbv, hav⟩ := apply_move_flips_first b x y p hp hm
  refine ⟨(x + d.1, y + d.2), ?_, hbv, hav⟩
  rw [mem_cells_iff]
  rw [onboard_iff] at hob
  exact ⟨hob.1, hob.2.1, hob.2.2.1, hob.2.2.2⟩

/-- Witness for C1: the opening move C4 flips a white stone. -/
theorem legal_moves_sound_witness :
    (ValidBoard initBoard ∧ (BLACK = BLACK ∨ BLACK = WHITE) ∧
        ((2 : Int), (3 : Int)) ∈ legal_moves initBoard BLACK) ∧
      ∃ c ∈ cells, initBoard c.2 c.1 = -BLACK ∧ (apply_move initBoard 2 3 BLACK) c.2 c.1 = BLACK :=
  ⟨⟨by decide, Or.inl rfl, by decide⟩,
    legal_moves_sound initBoard BLACK 2 3 (by decide) (Or.inl rfl) (by decide)⟩

/-! ### C4: negamax symmetry of the evaluation function. -/

theorem sum_map_neg {α G : Type} [AddCommGroup G] (l : List α) (f : α → G) :
    (l.map fun a => -(f a)).sum = -((l.map f).sum) := by
  induction l with
  | nil => simp
  | cons a rest ih =>
    simp only [List.map_cons, List.sum_cons, ih]
    abel

theorem cornerVal_neg (v : Int) : cornerVal v WHITE = -(cornerVal v BLACK) := by
  unfold cornerVal BLACK WHITE
  by_cases h1 : v = 1 <;> by_cases h2 : v = -1 <;> simp [h1, h2]

theorem corner_score_neg (b : Board) : corner_score b WHITE = -(corner_score b BLACK) := by
  unfold corner_score
  rw [show (CORNERS.map fun c => cornerVal (b c.2 c.1) WHITE) =
      CORNERS.map fun c => -(cornerVal (b c.2 c.1) BLACK) from
    List.map_congr_left fun c _ => cornerVal_neg (b c.2 c.1)]
  exact sum_map_neg CORNERS _

theorem dangerVal_neg (v : Int) : dangerVal v WHITE = -(dangerVal v BLACK) := by
  unfold dangerVal BLACK WHITE
  by_cases h1 : v = 1 <;> by_cases h2 : v = -1 <;> simp [h1, h2]

theorem danger_score_neg (b : Board) : danger_score b WHITE = -(danger_score b BLACK) := by
  unfold danger_score
  rw [show (ADJ_CORNERS.map fun c => dangerVal (b c.2 c.1) WHITE) =
      ADJ_CORNERS.map fun c => -(dangerVal (b c.2 c.1) BLACK) from
    List.map_congr_left fun c _ => dangerVal_neg (b c.2 c.1)]
  exact sum_map_neg ADJ_CORNERS _

theorem frontier_neg (b : Board) :
    stable_frontier_penalty b WHITE = -(stable_frontier_penalty b BLACK) := by
  unfold stable_frontier_penalty
  have h1 : (cells.countP fun c =>
      !decide (b c.2 c.1 = EMPTY) && hasEmptyNeighbor b c.1 c.2 &&
        decide (b c.2 c.1 = WHITE)) =
      cells.countP fun c =>
        !decide (b c.2 c.1 = EMPTY) && hasEmptyNeighbor b c.1 c.2 &&
          (!decide (b c.2 c.1 = BLACK) && decide (b c.2 c.1 = -BLACK)) := by
    apply List.countP_congr
    intro c _
    simp only [Bool.and_eq_true, Bool.not_eq_eq_eq_not, Bool.not_true, decide_eq_true_eq,
      decide_eq_false_iff_not, BLACK, WHITE]
    constructor
    · rintro ⟨⟨hne, hemp⟩, hv⟩
      exact ⟨⟨hne, hemp⟩, by omega, by omega⟩
    · rintro ⟨⟨hne, hemp⟩, h1, h2⟩
      exact ⟨⟨hne, hemp⟩, by omega⟩
  have h2 : (cells.countP fun c =>
      !decide (b c.2 c.1 = EMPTY) && hasEmptyNeighbor b c.1 c.2 &&
        (!decide (b c.2 c.1 = WHITE) && decide (b c.2 c.1 = -WHITE))) =
      cells.countP fun c =>
        !decide (b c.2 c.1 = EMPTY) && hasEmptyNeighbor b c.1 c.2 &&
          decide (b c.2 c.1 = BLACK) := by
    apply List.countP_congr
    intro c _
    simp only [Bool.and_eq_true, Bool.not_eq_eq_eq_not, Bool.not_true, decide_eq_true_eq,
      decide_eq_false_iff_not, BLACK, WHITE]
    constructor
    · rintro ⟨⟨hne, hemp⟩, h1, h2⟩
      exact ⟨⟨hne, hemp⟩, by omega⟩
    · rintro ⟨⟨hne, hemp⟩, hv⟩
      exact ⟨⟨hne, hemp⟩, by omega, by omega⟩
  rw [h1, h2]
  ring

/-- C4: for every board with cells in `{-1, 0, +1}`,
`evaluate(board, BLACK) = -evaluate(board, WHITE)`. -/
theorem evaluate_negamax_symm (b : Board) (_hb : ValidBoard b) :
    evaluate b BLACK = -(evaluate b WHITE) := by
  have hWB : -WHITE = BLACK := by decide
  have hBW : -BLACK = WHITE := by decide
  unfold evaluate
  simp only [hWB, hBW, if_pos rfl,
    show (WHITE = BLACK) = False by simp [WHITE, BLACK], if_false, if_neg,
    corner_score_neg, danger_score_neg, frontier_neg]
  push_cast
  ring

/-- Witness for C4: the initial position. -/
theorem evaluate_negamax_symm_witness :
    ValidBoard initBoard ∧ evaluate initBoard BLACK = -(evaluate initBoard WHITE) :=
  ⟨by decide, evaluate_negamax_symm initBoard (by decide)⟩

/-! ### C9: the move ordering. -/

theorem moveScore_corner {m : Int × Int} (h : m ∈ CORNERS) : moveScore m = -100 := by
  unfold moveScore
  rw [if_pos h]

theorem moveScore_adj {m : Int × Int} (h1 : m ∉ CORNERS) (h2 : m ∈ ADJ_CORNERS) :
    moveScore m = 20 := by
  unfold moveScore
  rw [if_neg h1, if_pos h2]

theorem moveScore_other {m : Int × Int} (h1 : m ∉ CORNERS) (h2 : m ∉ ADJ_CORNERS) :
    moveScore m = centerDist m := by
  unfold moveScore centerDist
  rw [if_neg h1, if_neg h2]

theorem centerDist_nonneg (m : Int × Int) : 0 ≤ centerDist m :=
  add_nonneg (abs_nonneg _) (abs_nonneg _)

theorem centerDist_le_seven {m : Int × Int} (h : onboard m.1 m.2 = true) :
    centerDist m ≤ 7 := by
  rw [onboard_iff] at h
  have hx0 : (0 : ℚ) ≤ (m.1 : ℚ) := by exact_mod_cast h.1
  have hx8 : (m.1 : ℚ) ≤ 7 := by
    have : m.1 ≤ (7 : Int) := by omega
    exact_mod_cast this
  have hy0 : (0 : ℚ) ≤ (m.2 : ℚ) := by exact_mod_cast h.2.2.1
  have hy8 : (m.2 : ℚ) ≤ 7 := by
    have : m.2 ≤ (7 : Int) := by omega
    exact_mod_cast this
  unfold centerDist
  have h1 : |(7/2 : ℚ) - (m.1 : ℚ)| ≤ 7/2 := by
    rw [abs_le]
    constructor <;> linarith
  have h2 : |(7/2 : ℚ) - (m.2 : ℚ)| ≤ 7/2 := by
    rw [abs_le]
    constructor <;> linarith
  linarith

theorem adj_corners_disjoint : ∀ m ∈ ADJ_CORNERS, m ∉ CORNERS := by decide

/-- C9: `order_moves` permutes its input; corners precede all non-corners;
corner-adjacent moves come after every move that is neither a corner nor
corner-adjacent; the remaining moves appear in ascending distance from the
board centre. -/
theorem order_moves_spec (moves : List (Int × Int))
    (h : ∀ m ∈ moves, onboard m.1 m.2 = true) :
    (order_moves moves).Perm moves ∧
      (order_moves moves).Pairwise (fun a b =>
        (b ∈ CORNERS → a ∈ CORNERS) ∧
        (a ∈ ADJ_CORNERS → b ∈ ADJ_CORNERS ∨ b ∈ CORNERS) ∧
        (a ∉ CORNERS → a ∉ ADJ_CORNERS → b ∉ CORNERS → b ∉ ADJ_CORNERS →
          centerDist a ≤ centerDist b)) := by
  haveI hTot : IsTotal (Int × Int) (fun a b => moveScore a ≤ moveScore b) :=
    ⟨fun a b => le_total (moveScore a) (moveScore b)⟩
  haveI hTrans : IsTrans (Int × Int) (fun a b => moveScore a ≤ moveScore b) :=
    ⟨fun _ _ _ hab hbc => le_trans hab hbc⟩
  have hperm : (order_moves moves).Perm moves :=
    List.perm_insertionSort (fun a b => moveScore a ≤ moveScore b) moves
  refine ⟨hperm, ?_⟩
  have hsorted : (order_moves moves).Pairwise (fun a b => moveScore a ≤ moveScore b) :=
    List.sorted_insertionSort (fun a b => moveScore a ≤ moveScore b) moves
  refine hsorted.imp_of_mem ?_
  intro a b ha hb hle
  have hbmem : b ∈ moves := hperm.mem_iff.mp hb
  have hob : onboard b.1 b.2 = true := h b hbmem
  refine ⟨?_, ?_, ?_⟩
  · intro hbc
    by_contra hac
    rw [moveScore_corner hbc] at hle
    by_cases hadj : a ∈ ADJ_CORNERS
    · rw [moveScore_adj hac hadj] at hle
      linarith
    · rw [moveScore_other hac hadj] at hle
      have := centerDist_nonneg a
      linarith
  · intro haadj
    by_contra hother
    push_neg at hother
    rw [moveScore_adj (adj_corners_disjoint a haadj) haadj,
      moveScore_other (fun hc => hother.2 hc) hother.1] at hle
    have := centerDist_le_seven hob
    linarith
  · intro h1 h2 h3 h4
    rw [moveScore_other h1 h2, moveScore_other h3 h4] at hle
    exact hle

/-- Witness for C9 on a small concrete move list. -/
theorem order_moves_spec_witness :
    (∀ m ∈ [((3 : Int), (3 : Int)), (1, 0), (0, 0), (5, 2)], onboard m.1 m.2 = true) ∧
      (order_moves [((3 : Int), (3 : Int)), (1, 0), (0, 0), (5, 2)]).Perm
          [((3 : Int), (3 : Int)), (1, 0), (0, 0), (5, 2)] ∧
        (order_moves [((3 : Int), (3 : Int)), (1, 0), (0, 0), (5, 2)]).Pairwise (fun a b =>
          (b ∈ CORNERS → a ∈ CORNERS) ∧
          (a ∈ ADJ_CORNERS → b ∈ ADJ_CORNERS ∨ b ∈ CORNERS) ∧
          (a ∉ CORNERS → a ∉ ADJ_CORNERS → b ∉ CORNERS → b ∉ ADJ_CORNERS →
            centerDist a ≤ centerDist b)) :=
  ⟨by decide, order_moves_spec [((3 : Int), (3 : Int)), (1, 0), (0, 0), (5, 2)] (by decide)⟩

/-! ### C2: `choose_move` returns a legal move exactly when one exists. -/

theorem list_map_eq_forall {α β : Type} {l : List α} {f g : α → β}
    (h : l.map f = l.map g) : ∀ a ∈ l, f a = g a := by
  induction l with
  | nil => intro a ha; simp at ha
  | cons hd tl ih =>
    intro a ha
    simp only [List.map_cons, List.cons.injEq] at h
    rcases List.mem_cons.mp ha with rfl | hmem
    · exact h.1
    · exact ih h.2 a hmem

theorem window_eq_of_ser_eq {b1 b2 : Board} (h : serBoard b1 = serBoard b2) :
    ∀ Y X : Int, onboard X Y = true → b1 Y X = b2 Y X := by
  intro Y X hob
  rw [onboard_iff] at hob
  unfold serBoard at h
  have hrow := list_map_eq_forall h Y.toNat (by rw [List.mem_range]; omega)
  have hcol := list_map_eq_forall hrow X.toNat (by rw [List.mem_range]; omega)
  have hY : Int.ofNat Y.toNat = Y := by
    rw [Int.ofNat_eq_coe, Int.toNat_of_nonneg hob.2.2.1]
  have hX : Int.ofNat X.toNat = X := by
    rw [Int.ofNat_eq_coe, Int.toNat_of_nonneg hob.1]
  rw [hY, hX] at hcol
  exact hcol

theorem ray_congr {b1 b2 : Board} (hw : ∀ Y X : Int, onboard X Y = true → b1 Y X = b2 Y X)
    (opp dx dy : Int) :
    ∀ (fuel : Nat) (nx ny : Int), ray b1 opp dx dy fuel nx ny = ray b2 opp dx dy fuel nx ny := by
  intro fuel
  induction fuel with
  | zero => intro nx ny; rfl
  | succ n ih =>
    intro nx ny
    rw [ray, ray]
    by_cases hob : onboard nx ny = true
    · rw [hw ny nx hob, ih]
    · rw [Bool.not_eq_true] at hob
      rw [hob]
      simp

theorem captures_congr {b1 b2 : Board}
    (hw : ∀ Y X : Int, onboard X Y = true → b1 Y X = b2 Y X) (p x y dx dy : Int) :
    captures b1 p x y dx dy = captures b2 p x y dx dy := by
  unfold captures
  rw [ray_congr hw (-p) dx dy 8 (x + dx) (y + dy)]
  dsimp only
  by_cases hob : onboard (ray b2 (-p) dx dy 8 (x + dx) (y + dy)).2.1
      (ray b2 (-p) dx dy 8 (x + dx) (y + dy)).2.2 = true
  · rw [hw _ _ hob]
  · rw [Bool.not_eq_true] at hob
    rw [hob]
    simp

theorem flatMap_congr_mem {α β : Type} {l : List α} {f g : α → List β}
    (h : ∀ a ∈ l, f a = g a) : l.flatMap f = l.flatMap g := by
  induction l with
  | nil => rfl
  | cons hd tl ih =>
    rw [List.flatMap_cons, List.flatMap_cons, h hd (List.mem_cons_self _ _),
      ih fun a ha => h a (List.mem_cons_of_mem _ ha)]

theorem filterMap_congr_mem {α β : Type} {l : List α} {f g : α → Option β}
    (h : ∀ a ∈ l, f a = g a) : l.filterMap f = l.filterMap g := by
  induction l with
  | nil => rfl
  | cons hd tl ih =>
    rw [List.filterMap_cons, List.filterMap_cons, h hd (List.mem_cons_self _ _),
      ih fun a ha => h a (List.mem_cons_of_mem _ ha)]

theorem legal_moves_congr {b1 b2 : Board}
    (hw : ∀ Y X : Int, onboard X Y = true → b1 Y X = b2 Y X) (p : Int) :
    legal_moves b1 p = legal_moves b2 p := by
  unfold legal_moves
  apply flatMap_congr_mem
  intro y hy
  apply filterMap_congr_mem
  intro x hx
  rw [List.mem_range] at hy hx
  have hob : onboard (Int.ofNat x) (Int.ofNat y) = true := by
    rw [onboard_iff]
    simp only [Int.ofNat_eq_coe]
    omega
  rw [hw _ _ hob,
    show (fun d : Int × Int => captures b1 p (Int.ofNat x) (Int.ofNat y) d.1 d.2) =
        (fun d : Int × Int => captures b2 p (Int.ofNat x) (Int.ofNat y) d.1 d.2) from
      funext fun d => captures_congr hw p (Int.ofNat x) (Int.ofNat y) d.1 d.2]

theorem board_key_congr {b1 b2 : Board} {p1 p2 : Int}
    (h : board_key b1 p1 = board_key b2 p2) :
    p1 = p2 ∧ legal_moves b1 p1 = legal_moves b2 p2 := by
  unfold board_key at h
  rw [Prod.mk.injEq] at h
  refine ⟨h.1, ?_⟩
  rw [h.1]
  exact legal_moves_congr (window_eq_of_ser_eq h.2) p2

theorem ttok_put {tt : TTmap} (htt : TTok tt) (b : Board) (p : Int) (e : TTE)
    (hval : ∃ q, e.value = XQ.fin q)
    (hbest : e.best = none ∨ ∃ m, e.best = some m ∧ m ∈ legal_moves b p) :
    TTok (ttPut tt (board_key b p) e) := by
  intro b2 p2 e2 hget
  unfold ttPut at hget
  rw [ttGet] at hget
  by_cases hk : board_key b p = board_key b2 p2
  · rw [if_pos hk] at hget
    obtain rfl : e = e2 := Option.some.inj hget
    refine ⟨hval, ?_⟩
    rcases hbest with h | ⟨m, hm, hmem⟩
    · exact Or.inl h
    · refine Or.inr ⟨m, hm, ?_⟩
      rw [← (board_key_congr hk).2]
      exact hmem
  · rw [if_neg hk] at hget
    exact htt b2 p2 e2 hget

theorem searchGo_ok {recur : Board → Int → XQ → XQ → SState → Except SState (XQ × SState)}
    {d' : Nat} (hrec : RecurOk recur d') (p : Int) (beta : XQ) :
    ∀ (ms : List (Int × Int)) (b : Board) (bestv : XQ) (bestmv : Option (Int × Int))
      (alpha : XQ) (st : SState), TTok st.tt → d' < st.rootDepth →
      match searchGo recur p beta ms b bestv bestmv alpha st with
      | Except.error st2 => TTok st2.tt ∧ st2.rootDepth = st.rootDepth ∧ st2.outMove = st.outMove
      | Except.ok (bv, bm, _, st2) =>
        TTok st2.tt ∧ st2.rootDepth = st.rootDepth ∧ st2.outMove = st.outMove ∧
          ((bm = bestmv ∧ bv = bestv) ∨
            ((∃ m ∈ ms, bm = some m) ∧ ∃ q, bv = XQ.fin q)) := by
  intro ms
  induction ms with
  | nil =>
    intro b bestv bestmv alpha st htt hlt
    rw [searchGo]
    exact ⟨htt, rfl, rfl, Or.inl ⟨rfl, rfl⟩⟩
  | cons m rest ih =>
    intro b bestv bestmv alpha st htt hlt
    obtain ⟨x, y⟩ := m
    rw [searchGo]
    have hr := hrec (apply_move b x y p) (-p) beta.neg alpha.neg st htt hlt
    cases hres : recur (apply_move b x y p) (-p) beta.neg alpha.neg st with
    | error st2 =>
      rw [hres] at hr
      exact hr
    | ok vst =>
      obtain ⟨v0, st2⟩ := vst
      rw [hres] at hr
      obtain ⟨htt2, hrd2, ⟨q, hq⟩, hout2⟩ := hr
      dsimp only
      set v := v0.neg with hv
      set bestv2 := if XQ.lt bestv v = true then v else bestv with hbv2
      set bestmv2 := if XQ.lt bestv v = true then some (x, y) else bestmv with hbm2
      set alpha2 := if XQ.lt alpha bestv2 = true then bestv2 else alpha with ha2
      have hacc : (bestmv2 = bestmv ∧ bestv2 = bestv) ∨
          ((∃ m ∈ (x, y) :: rest, bestmv2 = some m) ∧ ∃ q2, bestv2 = XQ.fin q2) := by
        by_cases himp : XQ.lt bestv v = true
        · refine Or.inr ⟨⟨(x, y), List.mem_cons_self _ _, by rw [hbm2, if_pos himp]⟩,
            ⟨-q, by rw [hbv2, if_pos himp, hv, hq]; rfl⟩⟩
        · exact Or.inl ⟨by rw [hbm2, if_neg himp], by rw [hbv2, if_neg himp]⟩
      by_cases hbk : XQ.le beta alpha2 = true
      · rw [if_pos hbk]
        exact ⟨htt2, hrd2, hout2, hacc⟩
      · rw [if_neg hbk]
        have hgo := ih b bestv2 bestmv2 alpha2 st2 htt2 (by rw [hrd2]; exact hlt)
        cases hres2 : searchGo recur p beta rest b bestv2 bestmv2 alpha2 st2 with
        | error st3 =>
          rw [hres2] at hgo
          exact ⟨hgo.1, hgo.2.1.trans hrd2, hgo.2.2.trans hout2⟩
        | ok r =>
          obtain ⟨bv, bm, al, st3⟩ := r
          rw [hres2] at hgo
          obtain ⟨htt3, hrd3, hout3, hdisj⟩ := hgo
          refine ⟨htt3, hrd3.trans hrd2, hout3.trans hout2, ?_⟩
          rcases hdisj with ⟨hbm, hbv⟩ | ⟨⟨m2, hm2, hbm⟩, hfin⟩
          · rcases hacc with ⟨h1, h2⟩ | ⟨⟨m2, hm2, h1⟩, h2⟩
            · exact Or.inl ⟨hbm.trans h1, hbv.trans h2⟩
            · refine Or.inr ⟨⟨m2, hm2, hbm.trans h1⟩, ?_⟩
              obtain ⟨q2, hq2⟩ := h2
              exact ⟨q2, hbv.trans hq2⟩
          · exact Or.inr ⟨⟨m2, List.mem_cons_of_mem _ hm2, hbm⟩, hfin⟩

theorem searchGo_start {recur : Board → Int → XQ → XQ → SState → Except SState (XQ × SState)}
    {d' : Nat} (hrec : RecurOk recur d') (p : Int) (beta : XQ) (x y : Int)
    (rest : List (Int × Int)) (b : Board) (alpha : XQ) (st : SState)
    (htt : TTok st.tt) (hlt : d' < st.rootDepth) :
    match searchGo recur p beta ((x, y) :: rest) b XQ.ninf none alpha st with
    | Except.error _ => True
    | Except.ok (bv, bm, _, _) => (∃ m ∈ (x, y) :: rest, bm = some m) ∧ ∃ q, bv = XQ.fin q := by
  rw [searchGo]
  have hr := hrec (apply_move b x y p) (-p) beta.neg alpha.neg st htt hlt
  cases hres : recur (apply_move b x y p) (-p) beta.neg alpha.neg st with
  | error st2 =>
    exact trivial
  | ok vst =>
    obtain ⟨v0, st2⟩ := vst
    rw [hres] at hr
    obtain ⟨htt2, hrd2, ⟨q, hq⟩, hout2⟩ := hr
    dsimp only
    have himp : XQ.lt XQ.ninf v0.neg = true := by rw [hq]; rfl
    rw [if_pos himp, if_pos himp]
    set bestv2 := v0.neg with hbv2
    set alpha2 := if XQ.lt alpha bestv2 = true then bestv2 else alpha with ha2
    have hfin2 : ∃ q2, bestv2 = XQ.fin q2 := ⟨-q, by rw [hbv2, hq]; rfl⟩
    by_cases hbk : XQ.le beta alpha2 = true
    · rw [if_pos hbk]
      exact ⟨⟨(x, y), List.mem_cons_self _ _, rfl⟩, hfin2⟩
    · rw [if_neg hbk]
      have hgo := searchGo_ok hrec p beta rest b bestv2 (some (x, y)) alpha2 st2 htt2
        (by rw [hrd2]; exact hlt)
      cases hres2 : searchGo recur p beta rest b bestv2 (some (x, y)) alpha2 st2 with
      | error st3 => exact trivial
      | ok r =>
        obtain ⟨bv, bm, al, st3⟩ := r
        rw [hres2] at hgo
        obtain ⟨-, -, -, hdisj⟩ := hgo
        rcases hdisj with ⟨hbm, hbv⟩ | ⟨⟨m2, hm2, hbm⟩, hfin⟩
        · refine ⟨⟨(x, y), List.mem_cons_self _ _, hbm⟩, ?_⟩
          obtain ⟨q2, hq2⟩ := hfin2
          exact ⟨q2, hbv.trans hq2⟩
        · exact ⟨⟨m2, List.mem_cons_of_mem _ hm2, hbm⟩, hfin⟩


theorem searchLoop_ok {recur : Board → Int → XQ → XQ → SState → Except SState (XQ × SState)}
    {d' : Nat} (hrec : RecurOk recur d') (d : Nat) (b : Board) (p : Int)
    (alpha beta : XQ) (st1 : SState) (ordered : List (Int × Int))
    (htt : TTok st1.tt) (hlt : d' < st1.rootDepth)
    (hne : ordered ≠ []) (hsub : ∀ m ∈ ordered, m ∈ legal_moves b p) :
    SearchOk b p st1 d (searchLoop recur d b p alpha beta st1 ordered) := by
  unfold searchLoop
  obtain ⟨⟨mx, my⟩, ms, rfl⟩ : ∃ hd tl, ordered = hd :: tl := by
    cases ordered with
    | nil => exact absurd rfl hne
    | cons hd tl => exact ⟨hd, tl, rfl⟩
  have hstart := searchGo_start hrec p beta mx my ms b alpha st1 htt hlt
  have hgo := searchGo_ok hrec p beta ((mx, my) :: ms) b XQ.ninf none alpha st1 htt hlt
  cases hres : searchGo recur p beta ((mx, my) :: ms) b XQ.ninf none alpha st1 with
  | error st2 =>
    rw [hres] at hgo
    exact hgo
  | ok r =>
    obtain ⟨bv, bm, al, st2⟩ := r
    rw [hres] at hgo hstart
    obtain ⟨htt2, hrd2, hout2, -⟩ := hgo
    obtain ⟨⟨m, hmmem, hbm⟩, ⟨q, hq⟩⟩ := hstart
    dsimp only
    have httok : TTok (ttPut st2.tt (board_key b p)
        { value := bv,
          flag := if XQ.le beta bv = true then Flag.LOWER
            else if XQ.le bv al = true then Flag.UPPER else Flag.EXACT,
          depth := d, best := bm }) :=
      ttok_put htt2 b p _ ⟨q, hq⟩ (Or.inr ⟨m, hbm, hsub m hmmem⟩)
    by_cases hroot : d = st2.rootDepth
    · rw [if_pos hroot]
      refine ⟨httok, hrd2, ⟨q, hq⟩, ?_, ?_⟩
      · intro hne2
        exact absurd (hroot.trans hrd2) hne2
      · intro _
        exact Or.inr (Or.inr ⟨m, hsub m hmmem, hbm⟩)
    · rw [if_neg hroot]
      refine ⟨httok, hrd2, ⟨q, hq⟩, fun _ => hout2, ?_⟩
      intro heq
      exact absurd (heq.trans hrd2.symm) hroot

theorem searchCore_ok {recur : Board → Int → XQ → XQ → SState → Except SState (XQ × SState)}
    {d' : Nat} (hrec : RecurOk recur d') (d : Nat) (hd : d = 0 ∨ d = d' + 1)
    (b : Board) (p : Int) (alpha beta : XQ) (st1 : SState) (entry : Option TTE)
    (htt : TTok st1.tt) (hdle : d ≤ st1.rootDepth)
    (hentry : ttGet st1.tt (board_key b p) = entry) :
    SearchOk b p st1 d (searchCore recur d b p alpha beta st1 entry) := by
  unfold searchCore
  dsimp only
  by_cases hleaf : d = 0 ∨ (legal_moves b p = [] ∧ legal_moves b (-p) = [])
  · rw [if_pos hleaf]
    exact ⟨htt, rfl, ⟨_, rfl⟩, fun _ => rfl, fun _ => Or.inl rfl⟩
  · rw [if_neg hleaf]
    have hd1 : d = d' + 1 := by
      rcases hd with rfl | h
      · exact absurd (Or.inl rfl) hleaf
      · exact h
    have hlt : d' < st1.rootDepth := by omega
    by_cases hpass : legal_moves b p = []
    · rw [if_pos hpass]
      have hr := hrec b (-p) beta.neg alpha.neg st1 htt hlt
      cases hres : recur b (-p) beta.neg alpha.neg st1 with
      | error st2 =>
        rw [hres] at hr
        exact hr
      | ok vst =>
        obtain ⟨v0, st2⟩ := vst
        rw [hres] at hr
        obtain ⟨htt2, hrd2, ⟨q, hq⟩, hout2⟩ := hr
        dsimp only
        exact ⟨ttok_put htt2 b p _ ⟨-q, by rw [hq]; rfl⟩ (Or.inl rfl), hrd2,
          ⟨-q, by rw [hq]; rfl⟩, fun _ => hout2, fun _ => Or.inl hout2⟩
    · rw [if_neg hpass]
      have hordered_perm : ∀ m ∈ order_moves (legal_moves b p), m ∈ legal_moves b p :=
        fun m hm => (List.perm_insertionSort
          (fun a c => moveScore a ≤ moveScore c) (legal_moves b p)).mem_iff.mp hm
      have hordered_ne : order_moves (legal_moves b p) ≠ [] := by
        intro h
        unfold order_moves at h
        have hperm := List.perm_insertionSort
          (fun a c => moveScore a ≤ moveScore c) (legal_moves b p)
        rw [h] at hperm
        exact hpass (List.Perm.eq_nil hperm.symm)
      cases hent2 : entry with
      | none =>
        dsimp only
        exact searchLoop_ok hrec d b p alpha beta st1 _ htt hlt hordered_ne hordered_perm
      | some e =>
        dsimp only
        cases hbest : e.best with
        | none =>
          dsimp only
          exact searchLoop_ok hrec d b p alpha beta st1 _ htt hlt hordered_ne hordered_perm
        | some mv0 =>
          dsimp only
          refine searchLoop_ok hrec d b p alpha beta st1 _ htt hlt
            (fun h => List.noConfusion h) ?_
          intro m hm
          rcases List.mem_cons.mp hm with rfl | hmem
          · have := htt b p e (by rw [hentry, hent2])
            rcases this.2 with hnone | ⟨m2, hm2, hmem2⟩
            · rw [hbest] at hnone
              exact absurd hnone (by simp)
            · rw [hbest] at hm2
              obtain rfl : m2 = m := (Option.some.inj hm2).symm
              exact hmem2
          · exact (List.mem_filter.mp hmem).1

theorem searchAux_ok {clk : Nat → Bool}
    {recur : Board → Int → XQ → XQ → SState → Except SState (XQ × SState)}
    {d' : Nat} (hrec : RecurOk recur d') (d : Nat) (hd : d = 0 ∨ d = d' + 1)
    (b : Board) (p : Int) (alpha beta : XQ) (st : SState)
    (htt : TTok st.tt) (hdle : d ≤ st.rootDepth) :
    SearchOk b p st d (searchAux clk recur d b p alpha beta st) := by
  unfold searchAux
  dsimp only
  cases hck : clk st.cnt with
  | true =>
    rw [if_pos rfl]
    exact ⟨htt, rfl, rfl⟩
  | false =>
    rw [if_neg (by simp)]
    cases hent : ttGet st.tt (board_key b p) with
    | none =>
      exact searchCore_ok hrec d hd b p alpha beta _ none htt hdle hent
    | some e =>
      dsimp only
      have hfin := (htt b p e hent).1
      by_cases hdep : d ≤ e.depth
      · rw [if_pos hdep]
        by_cases hflag : e.flag = Flag.EXACT
        · rw [if_pos hflag]
          exact ⟨htt, rfl, hfin, fun _ => rfl, fun _ => Or.inl rfl⟩
        · rw [if_neg hflag]
          by_cases hcut : XQ.le
              (if ¬(e.flag = Flag.LOWER ∧ XQ.lt alpha e.value = true) ∧
                  (e.flag = Flag.UPPER ∧ XQ.lt e.value beta = true) then e.value else beta)
              (if e.flag = Flag.LOWER ∧ XQ.lt alpha e.value = true then e.value else alpha) = true
          · rw [if_pos hcut]
            exact ⟨htt, rfl, hfin, fun _ => rfl, fun _ => Or.inl rfl⟩
          · rw [if_neg hcut]
            exact searchCore_ok hrec d hd b p _ _ _ (some e) htt hdle hent
      · rw [if_neg hdep]
        exact searchCore_ok hrec d hd b p alpha beta _ (some e) htt hdle hent

theorem search_ok (clk : Nat → Bool) :
    ∀ (d : Nat) (b : Board) (p : Int) (alpha beta : XQ) (st : SState),
      TTok st.tt → d ≤ st.rootDepth →
      SearchOk b p st d (search clk d b p alpha beta st) := by
  intro d
  induction d with
  | zero =>
    intro b p alpha beta st htt hdle
    rw [search]
    have hrec : RecurOk (fun _ _ _ _ s => Except.error s) 0 := by
      intro b2 p2 a2 b2x st2 htt2 hlt2
      exact ⟨htt2, rfl, rfl⟩
    exact searchAux_ok hrec 0 (Or.inl rfl) b p alpha beta st htt hdle
  | succ n ih =>
    intro b p alpha beta st htt hdle
    rw [search]
    have hrec : RecurOk (search clk n) n := by
      intro b2 p2 a2 b2x st2 htt2 hlt2
      have h := ih b2 p2 a2 b2x st2 htt2 (le_of_lt hlt2)
      cases hres : search clk n b2 p2 a2 b2x st2 with
      | error st3 =>
        rw [hres] at h
        exact h
      | ok vst =>
        obtain ⟨v, st3⟩ := vst
        rw [hres] at h
        obtain ⟨htt3, hrd3, hfin, hout1, -⟩ := h
        exact ⟨htt3, hrd3, hfin, hout1 (by omega)⟩
    exact searchAux_ok hrec (n + 1) (Or.inr rfl) b p alpha beta st htt hdle

theorem idLoop_mem (clk : Nat → Bool) (b : Board) (p : Int) :
    ∀ (ds : List Nat) (best : Int × Int) (st : SState),
      TTok st.tt → best ∈ legal_moves b p →
      (st.outMove = none ∨ ∃ m ∈ legal_moves b p, st.outMove = some m) →
      idLoop clk b p ds best st ∈ legal_moves b p := by
  intro ds
  induction ds with
  | nil =>
    intro best st _ hbest _
    rw [idLoop]
    exact hbest
  | cons d rest ih =>
    intro best st htt hbest hout
    rw [idLoop]
    have hso := search_ok clk d b p XQ.ninf XQ.pinf { st with rootDepth := d } htt le_rfl
    cases hres : search clk d b p XQ.ninf XQ.pinf { st with rootDepth := d } with
    | error st1 =>
      exact hbest
    | ok vst =>
      obtain ⟨v, st1⟩ := vst
      rw [hres] at hso
      obtain ⟨htt1, hrd1, -, -, hout1⟩ := hso
      have hout1d := hout1 rfl
      dsimp only at hout1d
      have hinv1 : st1.outMove = none ∨ ∃ m ∈ legal_moves b p, st1.outMove = some m := by
        rcases hout1d with h | h | h
        · rw [h]
          exact hout
        · exact Or.inl h
        · exact Or.inr h
      have hbest1 : (match st1.outMove with
          | some m => m
          | none => best) ∈ legal_moves b p := by
        cases hmv : st1.outMove with
        | none => exact hbest
        | some m =>
          rcases hinv1 with h | ⟨m2, hm2, hsome⟩
          · rw [hmv] at h
            exact absurd h (by simp)
          · rw [hmv] at hsome
            obtain rfl : m = m2 := Option.some.inj hsome
            exact hm2
      dsimp only
      cases hck : clk st1.cnt with
      | true =>
        rw [if_pos rfl]
        exact hbest1
      | false =>
        rw [if_neg (by simp)]
        refine ih _ _ htt1 hbest1 ?_
        exact hinv1

/-- C2: `choose_move` returns `None` iff the position has no legal move, and
whenever it returns a move that move is legal — for every wall-clock
behaviour (`clk`), in particular the immediately-expired clock that models a
0 ms time limit, and from any transposition-table contents satisfying the
table invariant. -/
theorem choose_move_legal (clk : Nat → Bool) (b : Board) (p : Int) (depth : Nat)
    (tt0 : TTmap) (htt : TTok tt0) :
    (choose_move clk b p depth tt0 = none ↔ legal_moves b p = []) ∧
      ∀ m, choose_move clk b p depth tt0 = some m → m ∈ legal_moves b p := by
  unfold choose_move
  cases hl : legal_moves b p with
  | nil =>
    exact ⟨by simp, by simp⟩
  | cons m0 rest =>
    constructor
    · simp
    · intro m hm
      have hmem : m = idLoop clk b p ((List.range depth).map (· + 1)) m0
          { tt := tt0, cnt := 0, outMove := none, rootDepth := depth } := by
        exact (Option.some.inj hm).symm
      rw [hmem]
      have := idLoop_mem clk b p ((List.range depth).map (· + 1)) m0
        { tt := tt0, cnt := 0, outMove := none, rootDepth := depth } htt
        (by rw [hl]; exact List.mem_cons_self _ _) (Or.inl rfl)
      rw [← hl]
      exact this

/-- Witness for C2: the initial position, a 0 ms budget (a clock that is
already expired at every check), search depth 3 and an empty table. -/
theorem choose_move_legal_witness :
    TTok ([] : TTmap) ∧
      ((choose_move (fun _ => true) initBoard BLACK 3 [] = none ↔
          legal_moves initBoard BLACK = []) ∧
        ∀ m, choose_move (fun _ => true) initBoard BLACK 3 [] = some m →
          m ∈ legal_moves initBoard BLACK) :=
  have htt : TTok ([] : TTmap) := fun _ _ _ h => Option.noConfusion h
  ⟨htt, choose_move_legal (fun _ => true) initBoard BLACK 3 [] htt⟩

/-! ### C3: the flag stored by the move loop.  The source classifies the
result against the loop-mutated `alpha` (which the loop has raised to
`best_val`), so `best_val <= alpha` always holds on loop exit and the move
loop can never store `EXACT` — contradicting the specified classification
against the original window. -/

theorem xle_self (v : XQ) : XQ.le v v = true := by
  cases v with
  | ninf => rfl
  | pinf => rfl
  | fin q => simp [XQ.le]

/-- C3 (refuting run): on the position `tinyBoard` with BLACK to move,
depth 1, the full original window `(-inf, +inf)`, an empty table and no
deadline, the completed move loop stores its (finite) best value with flag
`UPPER`, although the value lies strictly inside the original window, where
the claim requires `EXACT`. -/
theorem tt_store_flag_run :
    ∃ st2 : SState,
      search (fun _ => false) 1 tinyBoard BLACK XQ.ninf XQ.pinf
          { tt := [], cnt := 0, outMove := none, rootDepth := 1 } =
        Except.ok (XQ.fin (-(evaluate (apply_move tinyBoard 2 3 BLACK) (-BLACK))), st2) ∧
      ttGet st2.tt (board_key tinyBoard BLACK) =
        some { value := XQ.fin (-(evaluate (apply_move tinyBoard 2 3 BLACK) (-BLACK)))
               flag := Flag.UPPER
               depth := 1
               best := some (2, 3) } ∧
      XQ.lt XQ.ninf (XQ.fin (-(evaluate (apply_move tinyBoard 2 3 BLACK) (-BLACK)))) = true ∧
      XQ.lt (XQ.fin (-(evaluate (apply_move tinyBoard 2 3 BLACK) (-BLACK)))) XQ.pinf = true := by
  have hlegal : legal_moves tinyBoard BLACK = [(2, 3)] := by decide
  refine ⟨{ tt := [(board_key tinyBoard BLACK,
      { value := XQ.fin (-(evaluate (apply_move tinyBoard 2 3 BLACK) (-BLACK)))
        flag := Flag.UPPER
        depth := 1
        best := some (2, 3) })], cnt := 2, outMove := some (2, 3), rootDepth := 1 },
    ?_, ?_, rfl, rfl⟩
  · show searchAux (fun _ => false) (search (fun _ => false) 0) 1 tinyBoard BLACK
      XQ.ninf XQ.pinf { tt := [], cnt := 0, outMove := none, rootDepth := 1 } = _
    rw [searchAux]
    simp only [ttGet]
    rw [searchCore]
    simp only [hlegal]
    norm_num
    rw [show order_moves [((2 : Int), (3 : Int))] = [((2 : Int), (3 : Int))] from rfl]
    rw [searchLoop, searchGo]
    have hchild : search (fun _ => false) 0 (apply_move tinyBoard 2 3 BLACK) (-BLACK)
        XQ.pinf.neg XQ.ninf.neg { tt := [], cnt := 1, outMove := none, rootDepth := 1 } =
        Except.ok (XQ.fin (evaluate (apply_move tinyBoard 2 3 BLACK) (-BLACK)),
          { tt := [], cnt := 2, outMove := none, rootDepth := 1 }) := rfl
    rw [hchild]
    dsimp only
    simp only [XQ.neg]
    have h1 : XQ.lt XQ.ninf
        (XQ.fin (-(evaluate (apply_move tinyBoard 2 3 BLACK) (-BLACK)))) = true := rfl
    have h2 : XQ.le XQ.pinf
        (XQ.fin (-(evaluate (apply_move tinyBoard 2 3 BLACK) (-BLACK)))) = false := rfl
    have h3 := xle_self (XQ.fin (-(evaluate (apply_move tinyBoard 2 3 BLACK) (-BLACK))))
    simp only [h1, h2, h3, if_true, if_false]
    norm_num
    rw [searchGo]
    norm_num [h2, h3, ttPut]
  · simp [ttGet]

end Othello
